import Mathlib

/-!
Verification of the command/category store of the vaul repository
(vaul-v1/commandservice.go), shallowly embedded in Lean.

The store state is the pair of in-memory collections (`commands`,
`categories`).  File paths, JSON (de)serialisation and the update callback
are I/O plumbing; disk writes are modelled by a boolean parameter (`ok`)
standing for the success of `saveCommands` / `saveCategories`, so that the
behaviour of each operation on a failing write is captured faithfully
(the in-memory mutation happens before the write, exactly as in the Go
code).  Generated IDs and creation timestamps are passed in explicitly
(`newId`, `now`), standing for `generateID()` and `time.Now()`.
-/

namespace Vaul

/-- A stored terminal command (struct `Command` in commandservice.go).
The Go field `Alias` is rendered `aliasName` because `alias` is a reserved
word in Lean; timestamps are modelled as natural numbers. -/
structure Command where
  id : String
  content : String
  category : String
  aliasName : String
  createdAt : Nat
deriving DecidableEq, Repr

/-- A command category (struct `Category` in commandservice.go). -/
structure Category where
  id : String
  name : String
  color : String
  createdAt : Nat
deriving DecidableEq, Repr

/-- In-memory state of `CommandService`: the two collections. -/
structure CommandService where
  commands : List Command
  categories : List Category
deriving DecidableEq, Repr

/-- The state a fresh store starts from (empty backing files). -/
def emptyStore : CommandService := ⟨[], []⟩

/-- Error kinds of the store (spec §7); the Go code returns them as
`fmt.Errorf` values. -/
inductive VaulError where
  | duplicateAlias (a : String)
  | notFound (key : String)
  | persistError
deriving DecidableEq, Repr

/-- Translation of `ValidateAlias`: an alias is valid iff it is empty or no command other
than `excludeID` holds it. -/
def CommandService.ValidateAlias (cs : CommandService) (a excludeID : String) : Bool :=
  if a = "" then
    true
  else
    !(cs.commands.any (fun cmd => cmd.aliasName == a && cmd.id != excludeID))

/-- Translation of `AddCommandWithCategoryAndAlias`: validates the alias, prepends the new
command, then saves (`ok` = result of `saveCommands`). -/
def CommandService.AddCommandWithCategoryAndAlias (cs : CommandService)
    (content category a newId : String) (now : Nat) (ok : Bool) :
    CommandService × Except VaulError Command :=
  if a != "" && !(cs.ValidateAlias a "") then
    (cs, .error (.duplicateAlias a))
  else
    let cmd : Command := ⟨newId, content, category, a, now⟩
    let cs1 : CommandService := { cs with commands := cmd :: cs.commands }
    if ok then (cs1, .ok cmd) else (cs1, .error .persistError)

/-- Translation of `AddCommandWithCategory`: delegates with an empty alias. -/
def CommandService.AddCommandWithCategory (cs : CommandService)
    (content category newId : String) (now : Nat) (ok : Bool) :
    CommandService × Except VaulError Command :=
  cs.AddCommandWithCategoryAndAlias content category "" newId now ok

/-- Translation of `AddCommand`: delegates with an empty category. -/
def CommandService.AddCommand (cs : CommandService)
    (content newId : String) (now : Nat) (ok : Bool) :
    CommandService × Except VaulError Command :=
  cs.AddCommandWithCategory content "" newId now ok

/-- Translation of `GetCommands`: returns the in-memory collection. -/
def CommandService.GetCommands (cs : CommandService) : List Command :=
  cs.commands

/-- Translation of `GetCategories`: returns the in-memory collection. -/
def CommandService.GetCategories (cs : CommandService) : List Category :=
  cs.categories

/-- Translation of `DeleteCommand`: removes the first command with the given id and saves;
a missing id is a silent no-op (returns nil without saving). -/
def CommandService.DeleteCommand (cs : CommandService) (id : String) (ok : Bool) :
    CommandService × Except VaulError Unit :=
  if cs.commands.any (fun cmd => cmd.id == id) then
    let cs1 : CommandService := { cs with commands := cs.commands.eraseP (fun cmd => cmd.id == id) }
    if ok then (cs1, .ok ()) else (cs1, .error .persistError)
  else
    (cs, .ok ())

/-- Applies `f` to the first element satisfying `p` and keeps the rest:
the shape of the `for i := range` update-and-return loops in the Go code. -/
def modifyFirst {α : Type} (p : α → Bool) (f : α → α) : List α → List α
  | [] => []
  | c :: rest => if p c then f c :: rest else c :: modifyFirst p f rest

/-- Translation of `UpdateCommandCategory`: sets the category of the first command with the
given id and saves; a missing id is a silent no-op. -/
def CommandService.UpdateCommandCategory (cs : CommandService) (id category : String) (ok : Bool) :
    CommandService × Except VaulError Unit :=
  if cs.commands.any (fun cmd => cmd.id == id) then
    let cmds := modifyFirst (fun cmd => cmd.id == id)
      (fun cmd => { cmd with category := category }) cs.commands
    let cs1 : CommandService := { cs with commands := cmds }
    if ok then (cs1, .ok ()) else (cs1, .error .persistError)
  else
    (cs, .ok ())

/-- Translation of `GetCommandByAlias`: linear scan, first command whose alias matches. -/
def CommandService.GetCommandByAlias (cs : CommandService) (a : String) :
    Except VaulError Command :=
  match cs.commands.find? (fun cmd => cmd.aliasName == a) with
  | some cmd => .ok cmd
  | none => .error (.notFound a)

/-- Translation of `UpdateCommand`: finds the first command with the given id, re-validates
the alias when it is non-empty and changed, updates content/category/alias
in place, saves; a missing id is a hard `NotFound` failure. -/
def CommandService.UpdateCommand (cs : CommandService)
    (id content category a : String) (ok : Bool) :
    CommandService × Except VaulError Unit :=
  match cs.commands.find? (fun cmd => cmd.id == id) with
  | none => (cs, .error (.notFound id))
  | some cmd =>
    if a != "" && a != cmd.aliasName && !(cs.ValidateAlias a id) then
      (cs, .error (.duplicateAlias a))
    else
      let cmds := modifyFirst (fun c => c.id == id)
        (fun c => { c with content := content, category := category, aliasName := a })
        cs.commands
      let cs1 : CommandService := { cs with commands := cmds }
      if ok then (cs1, .ok ()) else (cs1, .error .persistError)

/-- Translation of `CreateCategory`: idempotent by name — if a category with the same name
exists, returns it without touching the state; else appends a new one and
saves. -/
def CommandService.CreateCategory (cs : CommandService)
    (name color newId : String) (now : Nat) (ok : Bool) :
    CommandService × Except VaulError Category :=
  match cs.categories.find? (fun cat => cat.name == name) with
  | some cat => (cs, .ok cat)
  | none =>
    let cat : Category := ⟨newId, name, color, now⟩
    let cs1 : CommandService := { cs with categories := cs.categories ++ [cat] }
    if ok then (cs1, .ok cat) else (cs1, .error .persistError)

/-- Translation of `UpdateCategory`: updates name/color of the first category with the given
id and saves; a missing id is a silent no-op. -/
def CommandService.UpdateCategory (cs : CommandService)
    (id name color : String) (ok : Bool) :
    CommandService × Except VaulError Unit :=
  if cs.categories.any (fun cat => cat.id == id) then
    let cats := modifyFirst (fun cat => cat.id == id)
      (fun cat => { cat with name := name, color := color }) cs.categories
    let cs1 : CommandService := { cs with categories := cats }
    if ok then (cs1, .ok ()) else (cs1, .error .persistError)
  else
    (cs, .ok ())

/-- Translation of `DeleteCategory`: if the category exists, reassigns every command
referencing it to `reassignTo`, removes the category, then saves categories
and commands (in that order); a missing id is a silent no-op. -/
def CommandService.DeleteCategory (cs : CommandService)
    (id reassignTo : String) (okCats okCmds : Bool) :
    CommandService × Except VaulError Unit :=
  if cs.categories.any (fun cat => cat.id == id) then
    let cmds := cs.commands.map
      (fun cmd => if cmd.category == id then { cmd with category := reassignTo } else cmd)
    let cats := cs.categories.eraseP (fun cat => cat.id == id)
    let cs1 : CommandService := { cs with commands := cmds, categories := cats }
    if okCats then
      if okCmds then (cs1, .ok ()) else (cs1, .error .persistError)
    else
      (cs1, .error .persistError)
  else
    (cs, .ok ())

/-- Translation of `MergeCategories`: moves all commands from source to target, then
deletes the source category reassigning to the target. -/
def CommandService.MergeCategories (cs : CommandService)
    (sourceID targetID : String) (okCats okCmds : Bool) :
    CommandService × Except VaulError Unit :=
  let cmds := cs.commands.map
    (fun cmd => if cmd.category == sourceID then { cmd with category := targetID } else cmd)
  let cs1 : CommandService := { cs with commands := cmds }
  cs1.DeleteCategory sourceID targetID okCats okCmds

/-- Translation of `GetCommandsByCategory`: linear filter; the empty id selects the
uncategorized commands. -/
def CommandService.GetCommandsByCategory (cs : CommandService) (categoryID : String) :
    List Command :=
  if categoryID = "" then
    cs.commands.filter (fun cmd => cmd.category == "")
  else
    cs.commands.filter (fun cmd => cmd.category == categoryID)

/-! ### Operation alphabet and reachability

Type `Op` lists the mutating operations of the service, with `generateID()` /
`time.Now()` outputs and the disk-write results as explicit data.  A state
is `Reachable` when some sequence of operations produces it from the empty
store, where every generated id satisfies the contract of `generateID`
(spec §6): non-empty (a timestamp string) and distinct from every id
already stored. -/

inductive Op where
  | addCommand (content newId : String) (now : Nat) (ok : Bool)
  | addCommandWithCategory (content category newId : String) (now : Nat) (ok : Bool)
  | addCommandWithCategoryAndAlias (content category a newId : String) (now : Nat) (ok : Bool)
  | deleteCommand (id : String) (ok : Bool)
  | updateCommandCategory (id category : String) (ok : Bool)
  | updateCommand (id content category a : String) (ok : Bool)
  | createCategory (name color newId : String) (now : Nat) (ok : Bool)
  | updateCategory (id name color : String) (ok : Bool)
  | deleteCategory (id reassignTo : String) (okCats okCmds : Bool)
  | mergeCategories (sourceID targetID : String) (okCats okCmds : Bool)
deriving Repr

/-- The state obtained by running one operation (discarding its result). -/
def applyOp (cs : CommandService) : Op → CommandService
  | .addCommand content newId now ok => (cs.AddCommand content newId now ok).1
  | .addCommandWithCategory content category newId now ok =>
      (cs.AddCommandWithCategory content category newId now ok).1
  | .addCommandWithCategoryAndAlias content category a newId now ok =>
      (cs.AddCommandWithCategoryAndAlias content category a newId now ok).1
  | .deleteCommand id ok => (cs.DeleteCommand id ok).1
  | .updateCommandCategory id category ok => (cs.UpdateCommandCategory id category ok).1
  | .updateCommand id content category a ok => (cs.UpdateCommand id content category a ok).1
  | .createCategory name color newId now ok => (cs.CreateCategory name color newId now ok).1
  | .updateCategory id name color ok => (cs.UpdateCategory id name color ok).1
  | .deleteCategory id reassignTo okCats okCmds =>
      (cs.DeleteCategory id reassignTo okCats okCmds).1
  | .mergeCategories sourceID targetID okCats okCmds =>
      (cs.MergeCategories sourceID targetID okCats okCmds).1

/-- The `generateID()` contract for the id consumed by an operation:
non-empty and fresh for the collection it is inserted into. -/
def opFresh (cs : CommandService) : Op → Prop
  | .addCommand _ newId _ _ => newId ≠ "" ∧ ∀ c ∈ cs.commands, c.id ≠ newId
  | .addCommandWithCategory _ _ newId _ _ => newId ≠ "" ∧ ∀ c ∈ cs.commands, c.id ≠ newId
  | .addCommandWithCategoryAndAlias _ _ _ newId _ _ =>
      newId ≠ "" ∧ ∀ c ∈ cs.commands, c.id ≠ newId
  | .createCategory _ _ newId _ _ => newId ≠ "" ∧ ∀ cat ∈ cs.categories, cat.id ≠ newId
  | _ => True

/-- States reachable from the empty store by operations with well-behaved
generated ids. -/
inductive Reachable : CommandService → Prop where
  | empty : Reachable emptyStore
  | step {cs : CommandService} (op : Op) :
      Reachable cs → opFresh cs op → Reachable (applyOp cs op)

/-! ### Invariants -/

/-- No two distinct entries of the collection hold the same non-empty
alias (spec §3, invariant on aliases). -/
def AliasUnique (cmds : List Command) : Prop :=
  cmds.Pairwise (fun c1 c2 => c1.aliasName = c2.aliasName → c1.aliasName = "")

instance aliasUniqueDecidable (cmds : List Command) : Decidable (AliasUnique cmds) := by
  unfold AliasUnique
  infer_instance

/-- Command ids are pairwise distinct and non-empty. -/
def IdsOk (cmds : List Command) : Prop :=
  cmds.Pairwise (fun c1 c2 => c1.id ≠ c2.id) ∧ ∀ c ∈ cmds, c.id ≠ ""

/-- The store invariants carried through the reachability induction. -/
def GoodState (cs : CommandService) : Prop :=
  IdsOk cs.commands ∧ AliasUnique cs.commands

/-! ### Helper lemmas -/

lemma mem_modifyFirst {α : Type} {p : α → Bool} {f : α → α} :
    ∀ {l : List α} {x : α}, x ∈ modifyFirst p f l →
      x ∈ l ∨ ∃ y, l.find? p = some y ∧ x = f y := by
  intro l
  induction l with
  | nil => intro x hx; simp [modifyFirst] at hx
  | cons c rest ih =>
    intro x hx
    by_cases hc : p c
    · rw [modifyFirst, if_pos hc] at hx
      rcases List.mem_cons.mp hx with h | h
      · exact Or.inr ⟨c, List.find?_cons_of_pos _ hc, h⟩
      · exact Or.inl (List.mem_cons_of_mem _ h)
    · rw [modifyFirst, if_neg hc] at hx
      rcases List.mem_cons.mp hx with h | h
      · exact Or.inl (h ▸ List.mem_cons_self _ _)
      · rcases ih h with h' | ⟨y, hy, hxy⟩
        · exact Or.inl (List.mem_cons_of_mem _ h')
        · exact Or.inr ⟨y, by rw [List.find?_cons_of_neg _ hc]; exact hy, hxy⟩

lemma modifyFirst_map_eq {α β : Type} (p : α → Bool) (f : α → α) (g : α → β)
    (hg : ∀ c, g (f c) = g c) : ∀ l : List α, (modifyFirst p f l).map g = l.map g := by
  intro l
  induction l with
  | nil => rfl
  | cons c rest ih =>
    by_cases hc : p c
    · rw [modifyFirst, if_pos hc]; simp [hg]
    · rw [modifyFirst, if_neg hc]; simp [ih]

lemma aliasUnique_of_map_eq {l l' : List Command}
    (h : l'.map (fun c => c.aliasName) = l.map (fun c => c.aliasName))
    (hl : AliasUnique l) : AliasUnique l' := by
  have h1 : (l.map (fun c => c.aliasName)).Pairwise (fun a1 a2 => a1 = a2 → a1 = "") :=
    List.pairwise_map.mpr hl
  rw [← h] at h1
  exact List.pairwise_map.mp h1

lemma idsOk_of_map_eq {l l' : List Command}
    (h : l'.map (fun c => c.id) = l.map (fun c => c.id)) (hl : IdsOk l) : IdsOk l' := by
  refine ⟨?_, ?_⟩
  · have h1 : (l.map (fun c => c.id)).Pairwise (fun i1 i2 => i1 ≠ i2) :=
      List.pairwise_map.mpr hl.1
    rw [← h] at h1
    exact List.pairwise_map.mp h1
  · intro c hc
    have hmem : c.id ∈ l'.map (fun c => c.id) := List.mem_map_of_mem _ hc
    rw [h] at hmem
    rcases List.mem_map.mp hmem with ⟨y, hy, hyc⟩
    exact hyc ▸ hl.2 y hy

lemma validateAlias_eq_true {cs : CommandService} {a excludeID : String} (ha : a ≠ "") :
    cs.ValidateAlias a excludeID = true ↔
      ∀ c ∈ cs.commands, c.aliasName = a → c.id = excludeID := by
  constructor
  · intro h c hc heq
    by_contra hne
    have : cs.commands.any (fun cmd => cmd.aliasName == a && cmd.id != excludeID) = true :=
      List.any_eq_true.mpr ⟨c, hc, by simp [heq, hne]⟩
    rw [CommandService.ValidateAlias, if_neg ha, this] at h
    simp at h
  · intro h
    rw [CommandService.ValidateAlias, if_neg ha]
    have : cs.commands.any (fun cmd => cmd.aliasName == a && cmd.id != excludeID) = false := by
      rw [List.any_eq_false]
      intro c hc
      simp only [Bool.and_eq_true, beq_iff_eq, bne_iff_ne, not_and, ne_eq, not_not]
      exact h c hc
    rw [this]
    rfl

lemma aliasUnique_modifyFirst_blank {p : Command → Bool} {f : Command → Command}
    (hf : ∀ c, (f c).aliasName = "") :
    ∀ l : List Command, AliasUnique l → AliasUnique (modifyFirst p f l) := by
  intro l
  induction l with
  | nil => intro _; exact List.Pairwise.nil
  | cons c rest ih =>
    intro hl
    rcases List.pairwise_cons.mp hl with ⟨hhead, htail⟩
    by_cases hc : p c
    · rw [modifyFirst, if_pos hc]
      refine List.pairwise_cons.mpr ⟨?_, htail⟩
      intro x _ _
      exact hf c
    · rw [modifyFirst, if_neg hc]
      refine List.pairwise_cons.mpr ⟨?_, ih htail⟩
      intro x hx heq
      rcases mem_modifyFirst hx with h | ⟨y, _, rfl⟩
      · exact hhead x h heq
      · rw [hf y] at heq
        exact heq

lemma aliasUnique_modifyFirst_keep (p : Command → Bool) (f : Command → Command)
    (y0 : Command) (hf : (f y0).aliasName = y0.aliasName) :
    ∀ l : List Command, l.find? p = some y0 → AliasUnique l →
      AliasUnique (modifyFirst p f l) := by
  intro l
  induction l with
  | nil => intro h _; simp at h
  | cons c rest ih =>
    intro hfind hl
    rcases List.pairwise_cons.mp hl with ⟨hhead, htail⟩
    by_cases hc : p c
    · rw [List.find?_cons_of_pos _ hc] at hfind
      have hc0 : c = y0 := by injection hfind
      subst hc0
      rw [modifyFirst, if_pos hc]
      refine List.pairwise_cons.mpr ⟨?_, htail⟩
      intro x hx heq
      rw [hf] at heq ⊢
      exact hhead x hx heq
    · rw [List.find?_cons_of_neg _ hc] at hfind
      rw [modifyFirst, if_neg hc]
      refine List.pairwise_cons.mpr ⟨?_, ih hfind htail⟩
      intro x hx heq
      rcases mem_modifyFirst hx with h | ⟨y, hy, rfl⟩
      · exact hhead x h heq
      · have hy0 : y = y0 := by rw [hfind] at hy; exact (Option.some.inj hy).symm
        subst hy0
        rw [hf] at heq
        exact hhead y (List.mem_of_find?_eq_some hfind) heq

lemma aliasUnique_modifyFirst_validated (id a : String) (f : Command → Command)
    (hfa : ∀ c, (f c).aliasName = a) :
    ∀ l : List Command, (∀ c ∈ l, c.aliasName = a → c.id = id) →
      l.Pairwise (fun c1 c2 => c1.id ≠ c2.id) → AliasUnique l →
      AliasUnique (modifyFirst (fun c => c.id == id) f l) := by
  intro l
  induction l with
  | nil => intro _ _ _; exact List.Pairwise.nil
  | cons c rest ih =>
    intro hval hids hl
    rcases List.pairwise_cons.mp hl with ⟨hhead, htail⟩
    rcases List.pairwise_cons.mp hids with ⟨hidh, hidt⟩
    by_cases hc : (c.id == id) = true
    · rw [modifyFirst, if_pos hc]
      have hcid : c.id = id := by simpa using hc
      refine List.pairwise_cons.mpr ⟨?_, htail⟩
      intro x hx heq
      rw [hfa c] at heq
      have hxid : x.id = id := hval x (List.mem_cons_of_mem _ hx) heq.symm
      exact absurd (hcid.trans hxid.symm) (hidh x hx)
    · rw [modifyFirst, if_neg hc]
      have hcid : c.id ≠ id := by simpa using hc
      refine List.pairwise_cons.mpr
        ⟨?_, ih (fun x hx => hval x (List.mem_cons_of_mem _ hx)) hidt htail⟩
      intro x hx heq
      rcases mem_modifyFirst hx with h | ⟨y, _, rfl⟩
      · exact hhead x h heq
      · rw [hfa y] at heq
        exact absurd (hval c (List.mem_cons_self _ _) heq) hcid

lemma map_comp_eq {α β : Type} (f : α → α) (g : α → β) (hg : ∀ c, g (f c) = g c) :
    ∀ l : List α, (l.map f).map g = l.map g := by
  intro l
  induction l with
  | nil => rfl
  | cons c rest ih => simp only [List.map_cons, hg, ih]

/-! ### Preservation of the invariants by every operation -/

lemma goodState_add {cs : CommandService} (h : GoodState cs)
    {content category a newId : String} {now : Nat} {ok : Bool}
    (hne : newId ≠ "") (hid : ∀ c ∈ cs.commands, c.id ≠ newId) :
    GoodState (cs.AddCommandWithCategoryAndAlias content category a newId now ok).1 := by
  rcases h with ⟨⟨hidp, hidne⟩, hau⟩
  rw [CommandService.AddCommandWithCategoryAndAlias]
  by_cases hcond : (a != "" && !(cs.ValidateAlias a "")) = true
  · rw [if_pos hcond]
    exact ⟨⟨hidp, hidne⟩, hau⟩
  · rw [if_neg hcond]
    have hgood : GoodState
        ⟨(⟨newId, content, category, a, now⟩ : Command) :: cs.commands, cs.categories⟩ := by
      refine ⟨⟨List.pairwise_cons.mpr ⟨fun x hx => (hid x hx).symm, hidp⟩, ?_⟩,
        List.pairwise_cons.mpr ⟨?_, hau⟩⟩
      · intro c hc
        rcases List.mem_cons.mp hc with rfl | hc'
        · exact hne
        · exact hidne c hc'
      · intro x hx heq
        by_cases haa : a = ""
        · exact haa
        · exfalso
          have hv : cs.ValidateAlias a "" = true := by
            by_contra hv
            exact hcond (by simp [bne_iff_ne, haa, Bool.eq_false_iff.mpr hv])
          have hxid : x.id = "" :=
            (validateAlias_eq_true haa).mp hv x hx heq.symm
          exact hidne x hx hxid
    cases ok <;> exact hgood

lemma goodState_deleteCommand {cs : CommandService} (h : GoodState cs)
    {id : String} {ok : Bool} : GoodState (cs.DeleteCommand id ok).1 := by
  rcases h with ⟨⟨hidp, hidne⟩, hau⟩
  rw [CommandService.DeleteCommand]
  by_cases hcond : cs.commands.any (fun cmd => cmd.id == id) = true
  · rw [if_pos hcond]
    have hsub : List.Sublist (cs.commands.eraseP (fun cmd => cmd.id == id)) cs.commands :=
      List.eraseP_sublist _
    have hgood : GoodState
        ⟨cs.commands.eraseP (fun cmd => cmd.id == id), cs.categories⟩ :=
      ⟨⟨hidp.sublist hsub, fun c hc => hidne c (hsub.subset hc)⟩, hau.sublist hsub⟩
    cases ok <;> exact hgood
  · rw [if_neg hcond]
    exact ⟨⟨hidp, hidne⟩, hau⟩

lemma goodState_updateCommandCategory {cs : CommandService} (h : GoodState cs)
    {id category : String} {ok : Bool} :
    GoodState (cs.UpdateCommandCategory id category ok).1 := by
  rcases h with ⟨hids, hau⟩
  rw [CommandService.UpdateCommandCategory]
  by_cases hcond : cs.commands.any (fun cmd => cmd.id == id) = true
  · rw [if_pos hcond]
    have hidm : (modifyFirst (fun cmd => cmd.id == id)
        (fun cmd => { cmd with category := category }) cs.commands).map (fun c => c.id) =
        cs.commands.map (fun c => c.id) :=
      modifyFirst_map_eq (fun cmd => cmd.id == id)
        (fun cmd => { cmd with category := category }) (fun c => c.id) (fun c => rfl) cs.commands
    have ham : (modifyFirst (fun cmd => cmd.id == id)
        (fun cmd => { cmd with category := category }) cs.commands).map (fun c => c.aliasName) =
        cs.commands.map (fun c => c.aliasName) :=
      modifyFirst_map_eq (fun cmd => cmd.id == id)
        (fun cmd => { cmd with category := category }) (fun c => c.aliasName) (fun c => rfl)
        cs.commands
    have hgood : GoodState
        ⟨modifyFirst (fun cmd => cmd.id == id) (fun cmd => { cmd with category := category })
          cs.commands, cs.categories⟩ :=
      ⟨idsOk_of_map_eq hidm hids, aliasUnique_of_map_eq ham hau⟩
    cases ok <;> exact hgood
  · rw [if_neg hcond]
    exact ⟨hids, hau⟩

lemma goodState_updateCommand {cs : CommandService} (h : GoodState cs)
    {id content category a : String} {ok : Bool} :
    GoodState (cs.UpdateCommand id content category a ok).1 := by
  rcases h with ⟨⟨hidp, hidne⟩, hau⟩
  cases hfind : cs.commands.find? (fun cmd => cmd.id == id) with
  | none =>
    simp only [CommandService.UpdateCommand, hfind]
    exact ⟨⟨hidp, hidne⟩, hau⟩
  | some cmd =>
    simp only [CommandService.UpdateCommand, hfind]
    by_cases hcond : (a != "" && a != cmd.aliasName && !(cs.ValidateAlias a id)) = true
    · rw [if_pos hcond]
      exact ⟨⟨hidp, hidne⟩, hau⟩
    · rw [if_neg hcond]
      have hauf : AliasUnique (modifyFirst (fun c => c.id == id)
          (fun c => { c with content := content, category := category, aliasName := a })
          cs.commands) := by
        by_cases haa : a = ""
        · exact aliasUnique_modifyFirst_blank (fun c => haa ▸ rfl) _ hau
        · by_cases hsame : a = cmd.aliasName
          · exact aliasUnique_modifyFirst_keep (fun c => c.id == id)
              (fun c => { c with content := content, category := category, aliasName := a })
              cmd hsame _ hfind hau
          · have hv : cs.ValidateAlias a id = true := by
              by_contra hv
              exact hcond
                (by simp [bne_iff_ne, haa, hsame, Bool.eq_false_iff.mpr hv])
            exact aliasUnique_modifyFirst_validated id a
              (fun c => { c with content := content, category := category, aliasName := a })
              (fun c => rfl) _ ((validateAlias_eq_true haa).mp hv) hidp hau
      have hidm : (modifyFirst (fun c => c.id == id)
          (fun c => { c with content := content, category := category, aliasName := a })
          cs.commands).map (fun c => c.id) = cs.commands.map (fun c => c.id) :=
        modifyFirst_map_eq (fun c => c.id == id)
          (fun c => { c with content := content, category := category, aliasName := a })
          (fun c => c.id) (fun c => rfl) cs.commands
      have hgood : GoodState
          ⟨modifyFirst (fun c => c.id == id)
            (fun c => { c with content := content, category := category, aliasName := a })
            cs.commands, cs.categories⟩ :=
        ⟨idsOk_of_map_eq hidm ⟨hidp, hidne⟩, hauf⟩
      cases ok <;> exact hgood

lemma goodState_createCategory {cs : CommandService} (h : GoodState cs)
    {name color newId : String} {now : Nat} {ok : Bool} :
    GoodState (cs.CreateCategory name color newId now ok).1 := by
  rw [CommandService.CreateCategory]
  cases hfind : cs.categories.find? (fun cat => cat.name == name) with
  | some cat => exact h
  | none => cases ok <;> exact h

lemma goodState_updateCategory {cs : CommandService} (h : GoodState cs)
    {id name color : String} {ok : Bool} :
    GoodState (cs.UpdateCategory id name color ok).1 := by
  rw [CommandService.UpdateCategory]
  by_cases hcond : cs.categories.any (fun cat => cat.id == id) = true
  · rw [if_pos hcond]
    cases ok <;> exact h
  · rw [if_neg hcond]
    exact h

lemma goodState_deleteCategory {cs : CommandService} (h : GoodState cs)
    {id reassignTo : String} {okCats okCmds : Bool} :
    GoodState (cs.DeleteCategory id reassignTo okCats okCmds).1 := by
  rcases h with ⟨hids, hau⟩
  rw [CommandService.DeleteCategory]
  by_cases hcond : cs.categories.any (fun cat => cat.id == id) = true
  · rw [if_pos hcond]
    have hgood : GoodState
        ⟨cs.commands.map
          (fun cmd => if cmd.category == id then { cmd with category := reassignTo } else cmd),
         cs.categories.eraseP (fun cat => cat.id == id)⟩ := by
      refine ⟨idsOk_of_map_eq ?_ hids, aliasUnique_of_map_eq ?_ hau⟩
      · exact map_comp_eq _ _
          (fun c => by by_cases hc : (c.category == id) = true <;> simp [hc]) _
      · exact map_comp_eq _ _
          (fun c => by by_cases hc : (c.category == id) = true <;> simp [hc]) _
    cases okCats <;> cases okCmds <;> exact hgood
  · rw [if_neg hcond]
    exact ⟨hids, hau⟩

lemma goodState_mergeCategories {cs : CommandService} (h : GoodState cs)
    {sourceID targetID : String} {okCats okCmds : Bool} :
    GoodState (cs.MergeCategories sourceID targetID okCats okCmds).1 := by
  rcases h with ⟨hids, hau⟩
  rw [CommandService.MergeCategories]
  apply goodState_deleteCategory
  refine ⟨idsOk_of_map_eq ?_ hids, aliasUnique_of_map_eq ?_ hau⟩
  · exact map_comp_eq _ _
      (fun c => by by_cases hc : (c.category == sourceID) = true <;> simp [hc]) _
  · exact map_comp_eq _ _
      (fun c => by by_cases hc : (c.category == sourceID) = true <;> simp [hc]) _

/-- Every operation whose generated ids satisfy the `generateID` contract
preserves the store invariants. -/
theorem goodState_applyOp {cs : CommandService} (op : Op) (h : GoodState cs)
    (hf : opFresh cs op) : GoodState (applyOp cs op) := by
  cases op with
  | addCommand content newId now ok => exact goodState_add h hf.1 hf.2
  | addCommandWithCategory content category newId now ok => exact goodState_add h hf.1 hf.2
  | addCommandWithCategoryAndAlias content category a newId now ok =>
      exact goodState_add h hf.1 hf.2
  | deleteCommand id ok => exact goodState_deleteCommand h
  | updateCommandCategory id category ok => exact goodState_updateCommandCategory h
  | updateCommand id content category a ok => exact goodState_updateCommand h
  | createCategory name color newId now ok => exact goodState_createCategory h
  | updateCategory id name color ok => exact goodState_updateCategory h
  | deleteCategory id reassignTo okCats okCmds => exact goodState_deleteCategory h
  | mergeCategories sourceID targetID okCats okCmds => exact goodState_mergeCategories h

/-- Every reachable state satisfies the store invariants. -/
theorem reachable_goodState {cs : CommandService} (h : Reachable cs) : GoodState cs := by
  induction h with
  | empty =>
      exact ⟨⟨List.Pairwise.nil, fun c hc => absurd hc (List.not_mem_nil c)⟩,
        List.Pairwise.nil⟩
  | step op _ hf ih => exact goodState_applyOp op ih hf

/-! ### Further helper lemmas for the claim theorems -/

/-- On the success path (empty or validated alias) the new command is
prepended, whether or not the disk write succeeds. -/
lemma add_commands_eq {cs : CommandService} {content category a newId : String}
    {now : Nat} {ok : Bool} (h : a = "" ∨ cs.ValidateAlias a "" = true) :
    (cs.AddCommandWithCategoryAndAlias content category a newId now ok).1.commands =
      (⟨newId, content, category, a, now⟩ : Command) :: cs.commands := by
  have hcond : (a != "" && !(cs.ValidateAlias a "")) = false := by
    rcases h with h | h <;> simp [h]
  rw [CommandService.AddCommandWithCategoryAndAlias,
    if_neg (by rw [hcond]; exact Bool.false_ne_true)]
  cases ok <;> rfl

lemma find?_append_first {α : Type} (p : α → Bool) :
    ∀ (pre : List α) (c : α) (post : List α), (∀ x ∈ pre, p x = false) → p c = true →
      (pre ++ c :: post).find? p = some c := by
  intro pre
  induction pre with
  | nil =>
    intro c post _ hc
    rw [List.nil_append]
    exact List.find?_cons_of_pos _ hc
  | cons x rest ih =>
    intro c post hpre hc
    rw [List.cons_append,
      List.find?_cons_of_neg _ (by rw [hpre x (List.mem_cons_self _ _)]; exact Bool.false_ne_true)]
    exact ih c post (fun y hy => hpre y (List.mem_cons_of_mem _ hy)) hc

/-- In an alias-unique collection, the linear scan finds exactly the member
holding the (non-empty) alias. -/
lemma find?_alias_unique {a : String} (ha : a ≠ "") :
    ∀ l : List Command, AliasUnique l → ∀ c ∈ l, c.aliasName = a →
      l.find? (fun cmd => cmd.aliasName == a) = some c := by
  intro l
  induction l with
  | nil => intro _ c hc; exact absurd hc (List.not_mem_nil c)
  | cons x rest ih =>
    intro hl c hc hca
    rcases List.pairwise_cons.mp hl with ⟨hhead, htail⟩
    by_cases hx : x.aliasName = a
    · rw [List.find?_cons_of_pos _ (by simp [hx])]
      rcases List.mem_cons.mp hc with rfl | hc'
      · rfl
      · exact absurd (hx.symm.trans (hhead c hc' (hx.trans hca.symm))) ha
    · rw [List.find?_cons_of_neg _ (by simp [hx])]
      rcases List.mem_cons.mp hc with rfl | hc'
      · exact absurd hca hx
      · exact ih htail c hc' hca

/-- The alias-uniqueness part of `goodState_add`, valid for any generated
id (no freshness needed). -/
lemma aliasUnique_add {cs : CommandService} (h : GoodState cs)
    (content category a newId : String) (now : Nat) (ok : Bool) :
    AliasUnique (cs.AddCommandWithCategoryAndAlias content category a newId now ok).1.commands := by
  rcases h with ⟨⟨_, hidne⟩, hau⟩
  rw [CommandService.AddCommandWithCategoryAndAlias]
  by_cases hcond : (a != "" && !(cs.ValidateAlias a "")) = true
  · rw [if_pos hcond]
    exact hau
  · rw [if_neg hcond]
    have hgood : AliasUnique ((⟨newId, content, category, a, now⟩ : Command) :: cs.commands) := by
      refine List.pairwise_cons.mpr ⟨?_, hau⟩
      intro x hx heq
      by_cases haa : a = ""
      · exact haa
      · exfalso
        have hv : cs.ValidateAlias a "" = true := by
          by_contra hv
          exact hcond (by simp [bne_iff_ne, haa, Bool.eq_false_iff.mpr hv])
        exact hidne x hx ((validateAlias_eq_true haa).mp hv x hx heq.symm)
    cases ok <;> exact hgood

lemma createCategory_found {cs : CommandService} {name : String} {cat0 : Category}
    (hfind : cs.categories.find? (fun cat => cat.name == name) = some cat0)
    (color newId : String) (now : Nat) (ok : Bool) :
    cs.CreateCategory name color newId now ok = (cs, .ok cat0) := by
  rw [CommandService.CreateCategory, hfind]

lemma createCategory_not_found {cs : CommandService} {name : String}
    (hfind : cs.categories.find? (fun cat => cat.name == name) = none)
    (color newId : String) (now : Nat) (ok : Bool) :
    cs.CreateCategory name color newId now ok =
      ({ cs with categories := cs.categories ++ [⟨newId, name, color, now⟩] },
        if ok then .ok ⟨newId, name, color, now⟩ else .error .persistError) := by
  rw [CommandService.CreateCategory, hfind]
  cases ok <;> rfl

/-- Runs a sequence of plain `AddCommand` calls; each entry carries the
content, the generated id and the creation time, with successful writes. -/
def addMany : CommandService → List (String × String × Nat) → CommandService
  | cs, [] => cs
  | cs, (content, newId, now) :: rest => addMany (cs.AddCommand content newId now true).1 rest

lemma addMany_commands : ∀ (entries : List (String × String × Nat)) (cs : CommandService),
    (addMany cs entries).commands =
      (entries.map (fun e => (⟨e.2.1, e.1, "", "", e.2.2⟩ : Command))).reverse ++
        cs.commands := by
  intro entries
  induction entries with
  | nil => intro cs; simp [addMany]
  | cons e rest ih =>
    intro cs
    obtain ⟨content, newId, now⟩ := e
    rw [addMany, ih]
    have hadd : (cs.AddCommand content newId now true).1.commands =
        (⟨newId, content, "", "", now⟩ : Command) :: cs.commands :=
      add_commands_eq (Or.inl rfl)
    rw [hadd]
    simp [List.append_assoc]

lemma map_map_eq {α : Type} (f g h : α → α) (hfg : ∀ c, g (f c) = h c) :
    ∀ l : List α, (l.map f).map g = l.map h := by
  intro l
  induction l with
  | nil => rfl
  | cons c rest ih => simp only [List.map_cons, hfg, ih]

lemma set_category_self {c : Command} {B : String} (h : c.category = B) :
    ({ c with category := B } : Command) = c := by
  cases c
  simp_all

lemma deleteCategory_state {cs : CommandService} {id : String}
    (hany : cs.categories.any (fun cat => cat.id == id) = true)
    (reassignTo : String) (okCats okCmds : Bool) :
    (cs.DeleteCategory id reassignTo okCats okCmds).1 =
      ⟨cs.commands.map
        (fun cmd => if cmd.category == id then { cmd with category := reassignTo } else cmd),
       cs.categories.eraseP (fun cat => cat.id == id)⟩ := by
  rw [CommandService.DeleteCategory, if_pos hany]
  cases okCats <;> cases okCmds <;> rfl

/-- The reassignment map of `DeleteCategory`/`MergeCategories` is
idempotent. -/
lemma reassign_idem (A B : String) (c : Command) :
    (if ((if c.category == A then { c with category := B } else c) : Command).category == A
      then { ((if c.category == A then { c with category := B } else c) : Command) with
        category := B }
      else ((if c.category == A then { c with category := B } else c) : Command)) =
    (if c.category == A then ({ c with category := B } : Command) else c) := by
  by_cases hc : (c.category == A) = true
  · by_cases hba : ((B == A : Bool) = true)
    · have hBA : B = A := by simpa using hba
      subst hBA
      simp [hc]
    · simp [hc, hba]
  · simp [hc]

lemma merge_state {cs : CommandService} {A : String} (B : String)
    (hany : cs.categories.any (fun cat => cat.id == A) = true) (okCats okCmds : Bool) :
    (cs.MergeCategories A B okCats okCmds).1 =
      ⟨cs.commands.map (fun c => if c.category == A then { c with category := B } else c),
       cs.categories.eraseP (fun cat => cat.id == A)⟩ := by
  have hany1 : ((⟨cs.commands.map
      (fun c => if c.category == A then { c with category := B } else c),
      cs.categories⟩ : CommandService)).categories.any (fun cat => cat.id == A) = true := hany
  simp only [CommandService.MergeCategories]
  rw [deleteCategory_state hany1 B okCats okCmds]
  congr 1
  exact map_map_eq _ _ _ (reassign_idem A B) cs.commands

lemma filter_map_reassign (A B : String) : ∀ l : List Command,
    ((l.map (fun c => if c.category == A then { c with category := B } else c)).filter
      (fun c => c.category == B)) =
    (l.filter (fun c => c.category == A || c.category == B)).map
      (fun c => { c with category := B }) := by
  intro l
  induction l with
  | nil => rfl
  | cons c rest ih =>
    simp only [List.map_cons, List.filter_cons]
    by_cases hc : (c.category == A) = true
    · rw [if_pos hc]
      have h1 : (({ c with category := B } : Command).category == B) = true := by simp
      have h2 : (c.category == A || c.category == B) = true := by
        rw [Bool.or_eq_true]
        exact Or.inl hc
      rw [if_pos h1, if_pos h2, List.map_cons, ih]
    · rw [if_neg hc]
      by_cases hb : (c.category == B) = true
      · have h2 : (c.category == A || c.category == B) = true := by
          rw [Bool.or_eq_true]
          exact Or.inr hb
        rw [if_pos hb, if_pos h2, List.map_cons, ih,
          set_category_self (by simpa using hb)]
      · have h2 : ¬((c.category == A || c.category == B) = true) := by
          rw [Bool.or_eq_true]
          rintro (h | h)
          · exact hc h
          · exact hb h
        rw [if_neg hb, if_neg h2, ih]

lemma eraseP_id_not_mem {A : String} : ∀ l : List Category,
    l.Pairwise (fun c1 c2 => c1.id ≠ c2.id) →
    ∀ cat ∈ l.eraseP (fun cat => cat.id == A), cat.id ≠ A := by
  intro l
  induction l with
  | nil => intro _ cat hc; simp at hc
  | cons c rest ih =>
    intro hp cat hc
    rcases List.pairwise_cons.mp hp with ⟨hhead, htail⟩
    by_cases hcA : (c.id == A) = true
    · rw [List.eraseP_cons_of_pos (a := c) (p := fun x => x.id == A) hcA] at hc
      have hcid : c.id = A := by simpa using hcA
      intro hcatA
      exact hhead cat hc (hcid.trans hcatA.symm)
    · rw [List.eraseP_cons_of_neg (a := c) (p := fun x => x.id == A) hcA] at hc
      rcases List.mem_cons.mp hc with rfl | hc'
      · simpa using hcA
      · exact ih htail cat hc'

/-- A concrete store used by the witnesses below. -/
def sampleStore : CommandService :=
  ⟨[⟨"20240102", "git status", "", "gs", 2⟩, ⟨"20240101", "ls -la", "c1", "", 1⟩],
   [⟨"c1", "Git", "#ff0000", 0⟩]⟩

/-! ### The claims -/

/-- C7: in a store satisfying the alias-uniqueness invariant,
`GetCommandByAlias a` (for non-empty `a`) returns exactly the command
holding alias `a`, and fails with `NotFound` when no command holds it. -/
theorem c7_get_command_by_alias (cs : CommandService) (a : String)
    (hau : AliasUnique cs.commands) (ha : a ≠ "") :
    (∀ c ∈ cs.commands, c.aliasName = a → cs.GetCommandByAlias a = .ok c) ∧
    ((∀ c ∈ cs.commands, c.aliasName ≠ a) →
      cs.GetCommandByAlias a = .error (.notFound a)) := by
  constructor
  · intro c hc hca
    rw [CommandService.GetCommandByAlias, find?_alias_unique ha cs.commands hau c hc hca]
  · intro h
    have hnone : cs.commands.find? (fun cmd => cmd.aliasName == a) = none := by
      rw [List.find?_eq_none]
      intro x hx
      simp [h x hx]
    rw [CommandService.GetCommandByAlias, hnone]

/-- Witness for C7 at a concrete store. -/
theorem c7_get_command_by_alias_witness :
    sampleStore.GetCommandByAlias "gs" = .ok ⟨"20240102", "git status", "", "gs", 2⟩ :=
  (c7_get_command_by_alias sampleStore "gs" (by decide) (by decide)).1
    ⟨"20240102", "git status", "", "gs", 2⟩ (by simp [sampleStore]) rfl

/-- C8: on an id absent from the commands collection, `UpdateCommand` fails
with `NotFound`, while `DeleteCommand` and `UpdateCommandCategory` succeed
as silent no-ops, all three leaving the state unchanged. -/
theorem c8_not_found_handling (cs : CommandService) (id : String)
    (h : ∀ c ∈ cs.commands, c.id ≠ id)
    (content category a : String) (ok : Bool) :
    cs.UpdateCommand id content category a ok = (cs, .error (.notFound id)) ∧
    cs.DeleteCommand id ok = (cs, .ok ()) ∧
    cs.UpdateCommandCategory id category ok = (cs, .ok ()) := by
  have hfind : cs.commands.find? (fun cmd => cmd.id == id) = none := by
    rw [List.find?_eq_none]
    intro x hx
    simp [h x hx]
  have hany : cs.commands.any (fun cmd => cmd.id == id) = false := by
    rw [List.any_eq_false]
    intro x hx
    simp [h x hx]
  refine ⟨?_, ?_, ?_⟩
  · rw [CommandService.UpdateCommand, hfind]
  · rw [CommandService.DeleteCommand, if_neg (by rw [hany]; exact Bool.false_ne_true)]
  · rw [CommandService.UpdateCommandCategory, if_neg (by rw [hany]; exact Bool.false_ne_true)]

/-- Witness for C8 at a concrete store and missing id. -/
theorem c8_not_found_handling_witness :
    sampleStore.UpdateCommand "missing" "x" "" "" true =
      (sampleStore, .error (.notFound "missing")) ∧
    sampleStore.DeleteCommand "missing" true = (sampleStore, .ok ()) ∧
    sampleStore.UpdateCommandCategory "missing" "" true = (sampleStore, .ok ()) :=
  c8_not_found_handling sampleStore "missing" (by decide) "x" "" "" true

/-- C9: when the disk write fails after the in-memory prepend,
`AddCommandWithCategoryAndAlias` returns a `PersistError` but the new
command remains in the in-memory collection (no rollback). -/
theorem c9_no_rollback_on_persist_failure (cs : CommandService)
    (content category a newId : String) (now : Nat)
    (h : a = "" ∨ cs.ValidateAlias a "" = true) :
    cs.AddCommandWithCategoryAndAlias content category a newId now false =
      ({ cs with commands := (⟨newId, content, category, a, now⟩ : Command) :: cs.commands },
        .error .persistError) ∧
    (⟨newId, content, category, a, now⟩ : Command) ∈
      (cs.AddCommandWithCategoryAndAlias content category a newId now false).1.commands := by
  have hcond : (a != "" && !(cs.ValidateAlias a "")) = false := by
    rcases h with h | h <;> simp [h]
  rw [CommandService.AddCommandWithCategoryAndAlias,
    if_neg (by rw [hcond]; exact Bool.false_ne_true)]
  exact ⟨rfl, List.mem_cons_self _ _⟩

/-- Witness for C9 at a concrete store. -/
theorem c9_no_rollback_on_persist_failure_witness :
    sampleStore.AddCommandWithCategoryAndAlias "docker ps" "" "dps" "20240103" 3 false =
      ({ sampleStore with
          commands := (⟨"20240103", "docker ps", "", "dps", 3⟩ : Command) ::
            sampleStore.commands }, .error .persistError) ∧
    (⟨"20240103", "docker ps", "", "dps", 3⟩ : Command) ∈
      (sampleStore.AddCommandWithCategoryAndAlias "docker ps" "" "dps" "20240103" 3 false).1.commands :=
  c9_no_rollback_on_persist_failure sampleStore "docker ps" "" "dps" "20240103" 3
    (Or.inr (by decide))

/-- C10: `GetCommandByAlias ""` returns the first stored command whose alias
field is empty, and fails with `NotFound` only when every stored command has
a non-empty alias. -/
theorem c10_empty_alias_lookup (cs : CommandService) :
    (∀ (pre : List Command) (c : Command) (post : List Command),
      cs.commands = pre ++ c :: post → (∀ x ∈ pre, x.aliasName ≠ "") →
      c.aliasName = "" → cs.GetCommandByAlias "" = .ok c) ∧
    ((∀ x ∈ cs.commands, x.aliasName ≠ "") →
      cs.GetCommandByAlias "" = .error (.notFound "")) := by
  constructor
  · intro pre c post hsplit hpre hc
    have hfind : cs.commands.find? (fun cmd => cmd.aliasName == "") = some c := by
      rw [hsplit]
      exact find?_append_first _ pre c post (fun x hx => by simp [hpre x hx]) (by simp [hc])
    rw [CommandService.GetCommandByAlias, hfind]
  · intro h
    have hnone : cs.commands.find? (fun cmd => cmd.aliasName == "") = none := by
      rw [List.find?_eq_none]
      intro x hx
      simp [h x hx]
    rw [CommandService.GetCommandByAlias, hnone]

/-- Witness for C10: the sample store's second command has an empty alias
and is returned by an empty-string lookup. -/
theorem c10_empty_alias_lookup_witness :
    sampleStore.GetCommandByAlias "" = .ok ⟨"20240101", "ls -la", "c1", "", 1⟩ :=
  (c10_empty_alias_lookup sampleStore).1 [⟨"20240102", "git status", "", "gs", 2⟩]
    ⟨"20240101", "ls -la", "c1", "", 1⟩ [] rfl (by decide) rfl

/-- C1: every state reachable from the empty store by store operations with
well-behaved generated ids satisfies the alias-uniqueness invariant, and the
two alias-touching mutating operations preserve it on any state satisfying
the store invariants. -/
theorem c1_alias_uniqueness_invariant :
    (∀ cs : CommandService, Reachable cs → AliasUnique cs.commands) ∧
    (∀ (cs : CommandService) (content category a newId : String) (now : Nat) (ok : Bool),
      GoodState cs →
      AliasUnique (cs.AddCommandWithCategoryAndAlias content category a newId now ok).1.commands) ∧
    (∀ (cs : CommandService) (id content category a : String) (ok : Bool),
      GoodState cs →
      AliasUnique (cs.UpdateCommand id content category a ok).1.commands) := by
  refine ⟨fun cs h => (reachable_goodState h).2, ?_, ?_⟩
  · intro cs content category a newId now ok h
    exact aliasUnique_add h content category a newId now ok
  · intro cs id content category a ok h
    exact (goodState_updateCommand h).2

/-- Witness for C1: a concrete reachable state. -/
theorem c1_alias_uniqueness_invariant_witness :
    AliasUnique (applyOp emptyStore
      (Op.addCommandWithCategoryAndAlias "ls -la" "" "l" "20240101" 0 true)).commands :=
  c1_alias_uniqueness_invariant.1 _
    (Reachable.step (Op.addCommandWithCategoryAndAlias "ls -la" "" "l" "20240101" 0 true)
      Reachable.empty ⟨by decide, fun c hc => absurd hc (List.not_mem_nil c)⟩)

/-- C3 counterexample: in a store containing a command whose non-empty alias
is "gs" but whose id is empty (as when loaded from a commands.json entry
without an id field), adding another command with alias "gs" is NOT
rejected: the duplicate-alias check excludes commands with empty id because
`AddCommandWithCategoryAndAlias` calls `ValidateAlias` with `excludeID = ""`,
so the commands collection changes. -/
theorem c3_counterexample :
    ((⟨[⟨"", "echo hi", "", "gs", 0⟩], []⟩ : CommandService).AddCommandWithCategoryAndAlias
      "echo bye" "" "gs" "20240102" 1 true).1.commands ≠
      [(⟨"", "echo hi", "", "gs", 0⟩ : Command)] := by
  decide

/-- C3 (amended): if some command with a NON-EMPTY id holds the non-empty
alias `a`, then `AddCommandWithCategoryAndAlias` with alias `a` fails with
`DuplicateAlias` and leaves the state (in particular the commands
collection) exactly as it was. -/
theorem c3_duplicate_alias_rejected (cs : CommandService) (c : Command) (a : String)
    (hc : c ∈ cs.commands) (hca : c.aliasName = a) (ha : a ≠ "") (hid : c.id ≠ "")
    (content category newId : String) (now : Nat) (ok : Bool) :
    cs.AddCommandWithCategoryAndAlias content category a newId now ok =
      (cs, .error (.duplicateAlias a)) := by
  have hv : cs.ValidateAlias a "" = false := by
    rw [CommandService.ValidateAlias, if_neg ha]
    have hany : cs.commands.any (fun cmd => cmd.aliasName == a && cmd.id != "") = true :=
      List.any_eq_true.mpr ⟨c, hc, by simp [hca, hid]⟩
    rw [hany]
    rfl
  rw [CommandService.AddCommandWithCategoryAndAlias,
    if_pos (by rw [hv]; simp [bne_iff_ne, ha])]

/-- Witness for the amended C3 at a concrete store. -/
theorem c3_duplicate_alias_rejected_witness :
    sampleStore.AddCommandWithCategoryAndAlias "git stat" "" "gs" "20240104" 4 true =
      (sampleStore, .error (.duplicateAlias "gs")) :=
  c3_duplicate_alias_rejected sampleStore ⟨"20240102", "git status", "", "gs", 2⟩ "gs"
    (by simp [sampleStore]) rfl (by decide) (by decide) "git stat" "" "20240104" 4 true

/-- C4: every successful add prepends the new command (so `GetCommands`
lists commands most-recent-first: a whole sequence of `AddCommand` calls
shows up reversed in front of the old collection), while every newly created
category is appended at the end of the categories collection. -/
theorem c4_ordering_policy :
    (∀ (cs : CommandService) (content category a newId : String) (now : Nat) (ok : Bool),
      (a = "" ∨ cs.ValidateAlias a "" = true) →
      (cs.AddCommandWithCategoryAndAlias content category a newId now ok).1.GetCommands =
        (⟨newId, content, category, a, now⟩ : Command) :: cs.GetCommands) ∧
    (∀ (cs : CommandService) (entries : List (String × String × Nat)),
      (addMany cs entries).GetCommands =
        (entries.map (fun e => (⟨e.2.1, e.1, "", "", e.2.2⟩ : Command))).reverse ++
          cs.GetCommands) ∧
    (∀ (cs : CommandService) (name color newId : String) (now : Nat) (ok : Bool),
      (∀ cat ∈ cs.categories, cat.name ≠ name) →
      (cs.CreateCategory name color newId now ok).1.GetCategories =
        cs.GetCategories ++ [⟨newId, name, color, now⟩]) := by
  refine ⟨?_, ?_, ?_⟩
  · intro cs content category a newId now ok h
    exact add_commands_eq h
  · intro cs entries
    exact addMany_commands entries cs
  · intro cs name color newId now ok h
    have hfind : cs.categories.find? (fun cat => cat.name == name) = none := by
      rw [List.find?_eq_none]
      intro x hx
      simp [h x hx]
    rw [CommandService.GetCategories, CommandService.GetCategories,
      createCategory_not_found hfind color newId now ok]

/-- Witness for C4 at a concrete store. -/
theorem c4_ordering_policy_witness :
    (sampleStore.AddCommandWithCategoryAndAlias "pwd" "" "" "20240105" 5 true).1.GetCommands =
      (⟨"20240105", "pwd", "", "", 5⟩ : Command) :: sampleStore.GetCommands ∧
    (sampleStore.CreateCategory "Docker" "" "20240106" 6 true).1.GetCategories =
      sampleStore.GetCategories ++ [⟨"20240106", "Docker", "", 6⟩] :=
  ⟨c4_ordering_policy.1 sampleStore "pwd" "" "" "20240105" 5 true (Or.inl rfl),
   c4_ordering_policy.2.2 sampleStore "Docker" "" "20240106" 6 true (by decide)⟩

/-- C6: `CreateCategory` is idempotent by name: two calls with the same name
give categories with the same id, the collection grows by at most one, and
when the name already exists the existing category is returned (not an
error) with the state unchanged. -/
theorem c6_create_category_idempotent (cs : CommandService)
    (name color1 color2 id1 id2 : String) (t1 t2 : Nat) (ok2 : Bool) :
    (∃ cat1 cat2 : Category,
      (cs.CreateCategory name color1 id1 t1 true).2 = .ok cat1 ∧
      ((cs.CreateCategory name color1 id1 t1 true).1.CreateCategory name color2 id2 t2 ok2).2 =
        .ok cat2 ∧
      cat1.id = cat2.id) ∧
    ((cs.CreateCategory name color1 id1 t1 true).1.CreateCategory
        name color2 id2 t2 ok2).1.categories.length ≤ cs.categories.length + 1 ∧
    ((∃ cat ∈ cs.categories, cat.name = name) →
      ∃ cat', cat' ∈ cs.categories ∧ cat'.name = name ∧
        (cs.CreateCategory name color1 id1 t1 true).2 = .ok cat' ∧
        (cs.CreateCategory name color1 id1 t1 true).1 = cs) := by
  cases hfind : cs.categories.find? (fun cat => cat.name == name) with
  | some cat0 =>
    have h1 : cs.CreateCategory name color1 id1 t1 true = (cs, .ok cat0) :=
      createCategory_found hfind color1 id1 t1 true
    have h2 : cs.CreateCategory name color2 id2 t2 ok2 = (cs, .ok cat0) :=
      createCategory_found hfind color2 id2 t2 ok2
    refine ⟨⟨cat0, cat0, ?_, ?_, rfl⟩, ?_, ?_⟩
    · rw [h1]
    · rw [h1, h2]
    · rw [h1, h2]
      exact Nat.le_succ _
    · intro _
      refine ⟨cat0, List.mem_of_find?_eq_some hfind, ?_, by rw [h1], by rw [h1]⟩
      have hp := List.find?_some hfind
      simpa using hp
  | none =>
    have h1 : cs.CreateCategory name color1 id1 t1 true =
        ({ cs with categories := cs.categories ++ [⟨id1, name, color1, t1⟩] },
          .ok ⟨id1, name, color1, t1⟩) := by
      rw [createCategory_not_found hfind color1 id1 t1 true]
      rfl
    have hfind2 : ({ cs with categories := cs.categories ++ [⟨id1, name, color1, t1⟩] } :
        CommandService).categories.find? (fun cat => cat.name == name) =
        some ⟨id1, name, color1, t1⟩ := by
      have hall : ∀ x ∈ cs.categories, (fun cat => cat.name == name) x = false := by
        intro x hx
        have hx2 := List.find?_eq_none.mp hfind x hx
        simpa using hx2
      exact find?_append_first (fun cat => cat.name == name) cs.categories
        ⟨id1, name, color1, t1⟩ [] hall (by simp)
    have h2 : ({ cs with categories := cs.categories ++ [⟨id1, name, color1, t1⟩] } :
        CommandService).CreateCategory name color2 id2 t2 ok2 =
        ({ cs with categories := cs.categories ++ [⟨id1, name, color1, t1⟩] },
          .ok ⟨id1, name, color1, t1⟩) :=
      createCategory_found hfind2 color2 id2 t2 ok2
    refine ⟨⟨⟨id1, name, color1, t1⟩, ⟨id1, name, color1, t1⟩, ?_, ?_, rfl⟩, ?_, ?_⟩
    · rw [h1]
    · rw [h1, h2]
    · rw [h1, h2]
      simp
    · rintro ⟨cat, hcmem, hcname⟩
      have hx2 := List.find?_eq_none.mp hfind cat hcmem
      simp [hcname] at hx2

/-- Witness for C6 at a concrete store. -/
theorem c6_create_category_idempotent_witness :
    ∃ cat1 cat2 : Category,
      (sampleStore.CreateCategory "Git" "#00ff00" "20240107" 7 true).2 = .ok cat1 ∧
      ((sampleStore.CreateCategory "Git" "#00ff00" "20240107" 7 true).1.CreateCategory
        "Git" "#0000ff" "20240108" 8 true).2 = .ok cat2 ∧
      cat1.id = cat2.id :=
  (c6_create_category_idempotent sampleStore "Git" "#00ff00" "#0000ff"
    "20240107" "20240108" 7 8 true).1

/-- C2 counterexample: with no categories and one command dangling on
category "c1", DeleteCategory("c1", "") is a silent no-op (the code returns
early when no category has the id), so a command with category equal to the
deleted id remains, contrary to the claim's unconditional postcondition. -/
theorem c2_counterexample :
    ∃ c ∈ ((⟨[⟨"1", "echo", "c1", "", 0⟩], []⟩ : CommandService).DeleteCategory
      "c1" "" true true).1.commands, c.category = "c1" := by
  decide

/-- C2 (amended): provided a category with the given id exists, category ids
are pairwise distinct, and `reassignTo ≠ id`, after
`DeleteCategory id reassignTo` no command has category `id`, the commands
collection is the old one with exactly the commands referencing `id`
reassigned to `reassignTo`, every command that previously referenced `id`
appears reassigned, and no category with that id remains. -/
theorem c2_delete_category (cs : CommandService) (id reassignTo : String)
    (hex : ∃ cat ∈ cs.categories, cat.id = id) (hne : reassignTo ≠ id)
    (hcat : cs.categories.Pairwise (fun c1 c2 => c1.id ≠ c2.id))
    (okCats okCmds : Bool) :
    (∀ c ∈ (cs.DeleteCategory id reassignTo okCats okCmds).1.commands, c.category ≠ id) ∧
    ((cs.DeleteCategory id reassignTo okCats okCmds).1.commands =
      cs.commands.map
        (fun cmd => if cmd.category == id then { cmd with category := reassignTo } else cmd)) ∧
    (∀ c ∈ cs.commands, c.category = id →
      ({ c with category := reassignTo } : Command) ∈
        (cs.DeleteCategory id reassignTo okCats okCmds).1.commands) ∧
    (∀ cat ∈ (cs.DeleteCategory id reassignTo okCats okCmds).1.categories, cat.id ≠ id) := by
  have hany : cs.categories.any (fun cat => cat.id == id) = true := by
    rcases hex with ⟨cat, hcm, hcid⟩
    exact List.any_eq_true.mpr ⟨cat, hcm, by simp [hcid]⟩
  rw [deleteCategory_state hany reassignTo okCats okCmds]
  refine ⟨?_, rfl, ?_, ?_⟩
  · intro c hc
    rcases List.mem_map.mp hc with ⟨y, hy, rfl⟩
    by_cases hyA : (y.category == id) = true
    · rw [if_pos hyA]
      exact hne
    · rw [if_neg hyA]
      simpa using hyA
  · intro c hc hcatid
    refine List.mem_map.mpr ⟨c, hc, ?_⟩
    rw [if_pos (by simp [hcatid])]
  · exact eraseP_id_not_mem cs.categories hcat

/-- Witness for the amended C2 at a concrete store. -/
theorem c2_delete_category_witness :
    (sampleStore.DeleteCategory "c1" "" true true).1.commands =
      sampleStore.commands.map
        (fun cmd => if cmd.category == "c1" then { cmd with category := "" } else cmd) :=
  (c2_delete_category sampleStore "c1" ""
    ⟨⟨"c1", "Git", "#ff0000", 0⟩, by simp [sampleStore], rfl⟩
    (by decide) (by decide) true true).2.1

/-- A concrete store with two categories, used by the C5 witness. -/
def mergeStore : CommandService :=
  ⟨[⟨"1", "git push", "cA", "", 1⟩, ⟨"2", "git pull", "cB", "", 2⟩, ⟨"3", "ls", "", "", 3⟩],
   [⟨"cA", "GitA", "", 0⟩, ⟨"cB", "GitB", "", 0⟩]⟩

/-- C5: when categories A and B exist (category ids pairwise distinct),
after `MergeCategories A B` the commands listed under B are exactly those
previously under A or under B (now all carrying category B, in their
original relative order), and no category with id A remains. -/
theorem c5_merge_categories (cs : CommandService) (A B : String)
    (hA : ∃ cat ∈ cs.categories, cat.id = A) (_hB : ∃ cat ∈ cs.categories, cat.id = B)
    (hcat : cs.categories.Pairwise (fun c1 c2 => c1.id ≠ c2.id))
    (okCats okCmds : Bool) :
    (cs.MergeCategories A B okCats okCmds).1.GetCommandsByCategory B =
      (cs.commands.filter (fun c => c.category == A || c.category == B)).map
        (fun c => { c with category := B }) ∧
    ∀ cat ∈ (cs.MergeCategories A B okCats okCmds).1.GetCategories, cat.id ≠ A := by
  have hany : cs.categories.any (fun cat => cat.id == A) = true := by
    rcases hA with ⟨cat, hcm, hcid⟩
    exact List.any_eq_true.mpr ⟨cat, hcm, by simp [hcid]⟩
  rw [merge_state B hany okCats okCmds]
  constructor
  · rw [CommandService.GetCommandsByCategory]
    by_cases hb : B = ""
    · subst hb
      rw [if_pos rfl]
      exact filter_map_reassign A "" cs.commands
    · rw [if_neg hb]
      exact filter_map_reassign A B cs.commands
  · exact eraseP_id_not_mem cs.categories hcat

/-- Witness for C5 at a concrete store. -/
theorem c5_merge_categories_witness :
    (mergeStore.MergeCategories "cA" "cB" true true).1.GetCommandsByCategory "cB" =
      (mergeStore.commands.filter (fun c => c.category == "cA" || c.category == "cB")).map
        (fun c => { c with category := "cB" }) :=
  (c5_merge_categories mergeStore "cA" "cB"
    ⟨⟨"cA", "GitA", "", 0⟩, by simp [mergeStore], rfl⟩
    ⟨⟨"cB", "GitB", "", 0⟩, by simp [mergeStore], rfl⟩
    (by decide) true true).1

end Vaul
